import Mathlib

/-!
Verification of the retrieval-and-reranking pipeline of the Rag-Chatbot backend.

The Python sources are shallowly embedded:
* text is a `List Char` (Python `str`), `str.strip()` is `stripChars`,
  `str.rfind(c, start, stop)` is `rfindI` (returning `-1 : Int` on failure);
* float scores are idealized as `ℚ`;
* Python's stable `list.sort(key=..., reverse=True)` is the stable insertion
  sort `sortDesc` (descending by key, ties keep the original order);
* backend calls (cross-encoder model, OpenAI scoring, Pinecone upsert, the
  retrieval stage of the orchestrator) are passed in as explicit values of
  type `Except String _`: an `.error` value models an exception raised by the
  backend call, exactly where the Python wraps the call in `try/except`.
-/

/-! ## Chunker: `ContentExtractor._create_text_chunks`
(src/backend/utils/content_extractor.py, lines 156-215) -/

/-- Python whitespace characters recognised by `str.strip()` (ASCII range). -/
def pyIsSpace (c : Char) : Bool :=
  c == ' ' || c == '\t' || c == '\n' || c == '\r' || c.val == 11 || c.val == 12

/-- Python `text.strip()`: drop leading and trailing whitespace. -/
def stripChars (s : List Char) : List Char :=
  ((s.dropWhile pyIsSpace).reverse.dropWhile pyIsSpace).reverse

/-- `MAX_CHUNK_SIZE = 500` (content_extractor.py line 14). -/
def MAX_CHUNK_SIZE : Nat := 500

/-- `CHUNK_OVERLAP = 100` (content_extractor.py line 15). -/
def CHUNK_OVERLAP : Nat := 100

/-- A chunk dict as produced by `_create_text_chunks`. -/
structure TextChunk where
  sequence : Nat
  text : List Char
  start_pos : Nat
  end_pos : Nat
  char_count : Nat
  deriving DecidableEq, Repr

/-- Python `text.rfind(c, start, stop)` restricted to single characters:
the largest index `i` with `start ≤ i < stop` and `s[i] = c`, if any.
Searches downward from `stop`. -/
def rfindAux (s : List Char) (c : Char) (start : Nat) : Nat → Option Nat
  | 0 => none
  | stop + 1 =>
    if start ≤ stop ∧ s[stop]? = some c then some stop else rfindAux s c start stop

/-- Python `text.rfind(c, start, stop)` with the `-1` failure convention. -/
def rfindI (s : List Char) (c : Char) (start stop : Nat) : Int :=
  (rfindAux s c start stop).elim (-1) (fun i => (i : Int))

/-- The end position chosen for the window starting at `start`
(content_extractor.py lines 180-195): the hard end `min(start+500, len)`,
snapped back to the last space, or past the last `.`/`!`/`?`, when that
break point lies beyond the window's midpoint `start + 250`. -/
def chunkEnd (s : List Char) (start : Nat) : Nat :=
  let end0 := min (start + MAX_CHUNK_SIZE) s.length
  if end0 < s.length then
    let lastSpace := rfindI s ' ' start end0
    let lastPunct :=
      max (max (rfindI s '.' start end0) (rfindI s '!' start end0)) (rfindI s '?' start end0)
    if ((start + MAX_CHUNK_SIZE / 2 : Nat) : Int) < lastSpace then lastSpace.toNat
    else if ((start + MAX_CHUNK_SIZE / 2 : Nat) : Int) < lastPunct then lastPunct.toNat + 1
    else end0
  else end0

/-- `start = max(start + MAX_CHUNK_SIZE - CHUNK_OVERLAP, end)`
(content_extractor.py line 209). -/
def advanceStart (start e : Nat) : Nat :=
  max (start + (MAX_CHUNK_SIZE - CHUNK_OVERLAP)) e

/-- The `while start < text_len` loop of `_create_text_chunks`
(content_extractor.py lines 179-213), with an explicit fuel argument;
`chunkLoop_terminates` shows any fuel `≥ len(text) - start` gives the
same value, so the fuel is not an approximation. -/
def chunkLoop (s : List Char) : Nat → Nat → Nat → List TextChunk
  | 0, _, _ => []
  | fuel + 1, start, seq =>
    if start < s.length then
      let e := chunkEnd s start
      let ctext := stripChars ((s.drop start).take (e - start))
      if ctext.isEmpty then chunkLoop s fuel (advanceStart start e) seq
      else
        ⟨seq, ctext, start, e, ctext.length⟩ :: chunkLoop s fuel (advanceStart start e) (seq + 1)
    else []

/-- `ContentExtractor._create_text_chunks` (content_extractor.py lines 156-215). -/
def createTextChunks (s : List Char) : List TextChunk :=
  if (stripChars s).isEmpty then []
  else if s.length ≤ MAX_CHUNK_SIZE then
    [⟨0, stripChars s, 0, s.length, s.length⟩]
  else chunkLoop s s.length 0 0

lemma stripChars_nil : stripChars [] = [] := rfl

lemma stripChars_eq_nil_iff {s : List Char} :
    stripChars s = [] ↔ ∀ c ∈ s, pyIsSpace c := by
  unfold stripChars
  constructor
  · intro h c hc
    have h' : (s.dropWhile pyIsSpace).reverse.dropWhile pyIsSpace = [] := by
      simpa using congrArg List.reverse h
    have hall : ∀ c ∈ (s.dropWhile pyIsSpace).reverse, pyIsSpace c := by
      simpa [List.dropWhile_eq_nil_iff] using h'
    rcases (List.takeWhile_append_dropWhile (p := pyIsSpace) (l := s)) ▸ hc with hmem
    rcases List.mem_append.mp hmem with h1 | h2
    · exact List.mem_takeWhile_imp h1
    · exact hall c (List.mem_reverse.mpr h2)
  · intro h
    have : s.dropWhile pyIsSpace = [] := List.dropWhile_eq_nil_iff.mpr fun c hc => h c hc
    simp [this]

lemma rfindAux_some {s : List Char} {c : Char} {start : Nat} :
    ∀ {stop i : Nat}, rfindAux s c start stop = some i → start ≤ i ∧ i < stop := by
  intro stop
  induction stop with
  | zero => intro i h; simp [rfindAux] at h
  | succ n ih =>
    intro i h
    by_cases hc : start ≤ n ∧ s[n]? = some c
    · simp [rfindAux, hc] at h
      exact ⟨h ▸ hc.1, h ▸ Nat.lt_succ_self n⟩
    · simp [rfindAux, hc] at h
      exact ⟨(ih h).1, Nat.lt_succ_of_lt (ih h).2⟩

lemma rfindI_lt (s : List Char) (c : Char) (start stop : Nat) :
    rfindI s c start stop < (stop : Int) := by
  unfold rfindI
  cases h : rfindAux s c start stop with
  | none => simp; omega
  | some i =>
    have := (rfindAux_some h).2
    simp
    omega

lemma rfindI_gt {s : List Char} {c : Char} {start stop k : Nat}
    (h : (k : Int) < rfindI s c start stop) :
    k < (rfindI s c start stop).toNat ∧ (rfindI s c start stop).toNat < stop ∧
      start ≤ (rfindI s c start stop).toNat := by
  cases hf : rfindAux s c start stop with
  | none =>
    unfold rfindI at h
    rw [hf] at h
    simp at h
    omega
  | some i =>
    have hi := rfindAux_some hf
    unfold rfindI at h ⊢
    rw [hf] at h ⊢
    simp at h ⊢
    omega

/-- Bounds on the chosen window end: when the loop condition holds the window
is nonempty, stays inside the text, and never exceeds `MAX_CHUNK_SIZE`. -/
lemma chunkEnd_bounds {s : List Char} {start : Nat} (h : start < s.length) :
    start < chunkEnd s start ∧ chunkEnd s start ≤ s.length ∧
      chunkEnd s start - start ≤ MAX_CHUNK_SIZE := by
  unfold chunkEnd
  set end0 := min (start + MAX_CHUNK_SIZE) s.length with hend0
  have hMAX : MAX_CHUNK_SIZE = 500 := rfl
  have h1 : start < end0 := by simp [hend0, hMAX]; omega
  have h2 : end0 ≤ s.length := by simp [hend0]
  have h3 : end0 - start ≤ MAX_CHUNK_SIZE := by simp [hend0]; omega
  by_cases hlt : end0 < s.length
  · simp only [hlt, if_true]
    set lastSpace := rfindI s ' ' start end0 with hls
    set p1 := rfindI s '.' start end0 with hp1
    set p2 := rfindI s '!' start end0 with hp2
    set p3 := rfindI s '?' start end0 with hp3
    by_cases hsp : ((start + MAX_CHUNK_SIZE / 2 : Nat) : Int) < lastSpace
    · simp only [hsp, if_true]
      have := rfindI_gt hsp
      omega
    · simp only [hsp, if_false]
      by_cases hpu : ((start + MAX_CHUNK_SIZE / 2 : Nat) : Int) < max (max p1 p2) p3
      · simp only [hpu, if_true]
        have hlt1 := rfindI_lt s '.' start end0
        have hlt2 := rfindI_lt s '!' start end0
        have hlt3 := rfindI_lt s '?' start end0
        rw [← hp1] at hlt1; rw [← hp2] at hlt2; rw [← hp3] at hlt3
        omega
      · simp only [hpu, if_false]
        exact ⟨h1, h2, h3⟩
  · simp only [hlt, if_false]
    exact ⟨h1, h2, h3⟩

lemma advanceStart_ge (start e : Nat) : start + 400 ≤ advanceStart start e := by
  unfold advanceStart
  have : MAX_CHUNK_SIZE - CHUNK_OVERLAP = 400 := rfl
  omega

lemma chunkLoop_of_ge {s : List Char} {start : Nat} (h : s.length ≤ start) :
    ∀ fuel seq, chunkLoop s fuel start seq = [] := by
  intro fuel seq
  cases fuel with
  | zero => rfl
  | succ n => simp [chunkLoop, Nat.not_lt.mpr h]

/-- C7 (termination of the chunking loop): the window start strictly advances
by at least `MAX_CHUNK_SIZE - CHUNK_OVERLAP = 400` on every iteration, and as
a consequence the loop is insensitive to any fuel of at least
`len(text) - start`: the recursion computed with any two sufficient fuels
agrees, i.e. the loop terminates after finitely many iterations. -/
theorem chunkLoop_terminates :
    (∀ start e, start + 400 ≤ advanceStart start e ∧ start < advanceStart start e) ∧
    (∀ (s : List Char) (f₁ f₂ start seq : Nat),
      s.length ≤ start + f₁ → s.length ≤ start + f₂ →
      chunkLoop s f₁ start seq = chunkLoop s f₂ start seq) := by
  constructor
  · intro start e
    have := advanceStart_ge start e
    omega
  · intro s f₁
    induction f₁ with
    | zero =>
      intro f₂ start seq h₁ h₂
      rw [chunkLoop_of_ge (by omega), chunkLoop_of_ge (by omega)]
    | succ k ih =>
      intro f₂ start seq h₁ h₂
      by_cases hlt : start < s.length
      · cases f₂ with
        | zero => omega
        | succ m =>
          have hadv := advanceStart_ge start (chunkEnd s start)
          simp only [chunkLoop, hlt, if_true]
          rw [ih m (advanceStart start (chunkEnd s start)) seq (by omega) (by omega),
            ih m (advanceStart start (chunkEnd s start)) (seq + 1) (by omega) (by omega)]
      · rw [chunkLoop_of_ge (by omega), chunkLoop_of_ge (by omega)]

/-- Witness for `chunkLoop_terminates` at a concrete text and fuels. -/
theorem chunkLoop_terminates_witness :
    ((['a'] : List Char).length ≤ 0 + 1 ∧ (['a'] : List Char).length ≤ 0 + 2) ∧
      chunkLoop ['a'] 1 0 0 = chunkLoop ['a'] 2 0 0 :=
  ⟨⟨by decide, by decide⟩, chunkLoop_terminates.2 ['a'] 1 2 0 0 (by decide) (by decide)⟩

lemma chunkLoop_invariants (s : List Char) :
    ∀ fuel start seq,
      (∀ c ∈ chunkLoop s fuel start seq,
        start ≤ c.start_pos ∧ c.start_pos < c.end_pos ∧ c.end_pos ≤ s.length ∧
          c.end_pos - c.start_pos ≤ MAX_CHUNK_SIZE) ∧
      (chunkLoop s fuel start seq).map (fun c => c.sequence) =
        List.range' seq (chunkLoop s fuel start seq).length ∧
      (chunkLoop s fuel start seq).Pairwise (fun a b => a.start_pos < b.start_pos) := by
  intro fuel
  induction fuel with
  | zero => intro start seq; simp [chunkLoop]
  | succ n ih =>
    intro start seq
    by_cases hlt : start < s.length
    · have hadv := advanceStart_ge start (chunkEnd s start)
      have hbounds := chunkEnd_bounds hlt
      have ihs := ih (advanceStart start (chunkEnd s start)) seq
      have ihs1 := ih (advanceStart start (chunkEnd s start)) (seq + 1)
      by_cases hemp : (stripChars ((s.drop start).take (chunkEnd s start - start))).isEmpty
      · simp only [chunkLoop, hlt, if_true, hemp]
        refine ⟨fun c hc => ?_, ihs.2.1, ihs.2.2⟩
        have := ihs.1 c hc
        omega
      · simp only [chunkLoop, hlt, if_true, hemp, if_false]
        refine ⟨?_, ?_, ?_⟩
        · intro c hc
          rcases List.mem_cons.mp hc with rfl | hc'
          · exact ⟨le_refl _, hbounds.1, hbounds.2.1, hbounds.2.2⟩
          · have := ihs1.1 c hc'
            omega
        · simp [ihs1.2.1, List.range'_succ]
        · refine List.pairwise_cons.mpr ⟨fun b hb => ?_, ihs1.2.2⟩
          have := ihs1.1 b hb
          dsimp only
          omega
    · rw [chunkLoop_of_ge (by omega)]
      simp

/-- C10 (chunk invariants): every emitted chunk satisfies
`start_pos < end_pos ≤ len(text)` (and `0 ≤ start_pos` holds since positions
are naturals) with a window of at most `MAX_CHUNK_SIZE = 500` characters,
the sequence numbers are the consecutive integers `0, 1, ...`, and the start
positions are strictly increasing along the emitted chunk list. -/
theorem createTextChunks_invariants (s : List Char) :
    (∀ c ∈ createTextChunks s,
      c.start_pos < c.end_pos ∧ c.end_pos ≤ s.length ∧
        c.end_pos - c.start_pos ≤ MAX_CHUNK_SIZE) ∧
    (createTextChunks s).map (fun c => c.sequence) =
      List.range' 0 (createTextChunks s).length ∧
    (createTextChunks s).Pairwise (fun a b => a.start_pos < b.start_pos) := by
  unfold createTextChunks
  by_cases hstrip : (stripChars s).isEmpty
  · simp [hstrip]
  · by_cases hlen : s.length ≤ MAX_CHUNK_SIZE
    · have hpos : 0 < s.length := by
        rcases s with _ | ⟨a, t⟩
        · simp [stripChars_nil] at hstrip
        · simp
      simp only [hstrip, if_false, hlen, if_true]
      refine ⟨?_, by simp [List.range'], by simp⟩
      intro c hc
      simp at hc
      subst hc
      simp
      omega
    · simp only [hstrip, if_false, hlen]
      have h := chunkLoop_invariants s s.length 0 0
      exact ⟨fun c hc => (h.1 c hc).2, h.2.1, h.2.2⟩

/-- Witness for `createTextChunks_invariants`: evaluates the bounds part on a
concrete text and one of its chunks. -/
theorem createTextChunks_invariants_witness :
    (⟨0, ['h', 'i'], 0, 2, 2⟩ : TextChunk) ∈ createTextChunks ['h', 'i'] ∧
      ((⟨0, ['h', 'i'], 0, 2, 2⟩ : TextChunk).start_pos <
          (⟨0, ['h', 'i'], 0, 2, 2⟩ : TextChunk).end_pos ∧
        (⟨0, ['h', 'i'], 0, 2, 2⟩ : TextChunk).end_pos ≤ (['h', 'i'] : List Char).length ∧
        (⟨0, ['h', 'i'], 0, 2, 2⟩ : TextChunk).end_pos -
            (⟨0, ['h', 'i'], 0, 2, 2⟩ : TextChunk).start_pos ≤ MAX_CHUNK_SIZE) :=
  ⟨by decide, (createTextChunks_invariants ['h', 'i']).1 ⟨0, ['h', 'i'], 0, 2, 2⟩ (by decide)⟩

/-- C6 (small texts): for text of length at most 500, a whitespace-only (or
empty) input yields no chunks, and any other input yields exactly one chunk
carrying the trimmed text with `sequence = 0`, `start_pos = 0` and
`end_pos = len(text)`. -/
theorem createTextChunks_small (s : List Char) (hlen : s.length ≤ 500) :
    ((∀ c ∈ s, pyIsSpace c) → createTextChunks s = []) ∧
    (¬ (∀ c ∈ s, pyIsSpace c) →
      createTextChunks s = [⟨0, stripChars s, 0, s.length, s.length⟩]) := by
  have hMAX : MAX_CHUNK_SIZE = 500 := rfl
  constructor
  · intro h
    have : stripChars s = [] := stripChars_eq_nil_iff.mpr h
    simp [createTextChunks, this]
  · intro h
    have : ¬ stripChars s = [] := fun hc => h (stripChars_eq_nil_iff.mp hc)
    simp [createTextChunks, this, hMAX ▸ hlen, List.isEmpty_iff]

/-- Witness for `createTextChunks_small` at a concrete two-character text. -/
theorem createTextChunks_small_witness :
    ((['h', 'i'] : List Char).length ≤ 500 ∧ ¬ (∀ c ∈ (['h', 'i'] : List Char), pyIsSpace c)) ∧
      createTextChunks ['h', 'i'] =
        [⟨0, stripChars ['h', 'i'], 0, (['h', 'i'] : List Char).length,
          (['h', 'i'] : List Char).length⟩] :=
  ⟨⟨by decide, by decide⟩, (createTextChunks_small ['h', 'i'] (by decide)).2 (by decide)⟩

/-! ## Reranker: `RerankerService` (src/backend/services/reranker_service.py) -/

/-- A retrieved-chunk dict as it flows through the RAG pipeline.  Optional
fields model dict keys that may be absent (`none` = key missing, read back
through Python's `dict.get` defaults). -/
structure RChunk where
  cid : Option Nat := none
  text : String := ""
  score : ℚ := 0
  rerank_score : Option ℚ := none
  original_score : Option ℚ := none
  hybrid_score : Option ℚ := none
  reranked : Bool := false
  deriving DecidableEq

/-- A default chunk used by concrete witnesses. -/
def sampleChunk : RChunk := {}

/-- Insert into a list sorted descending by `key`, after all elements with an
equal or larger key (the placement Python's stable sort gives). -/
def insertDesc {α : Type} (key : α → ℚ) (a : α) : List α → List α
  | [] => [a]
  | b :: l => if key a < key b then b :: insertDesc key a l else a :: b :: l

/-- Python's stable `list.sort(key=..., reverse=True)`: sort descending by
`key`; elements with equal keys keep their original relative order. -/
def sortDesc {α : Type} (key : α → ℚ) : List α → List α
  | [] => []
  | a :: l => insertDesc key a (sortDesc key l)

lemma mem_insertDesc {α : Type} {key : α → ℚ} {a x : α} :
    ∀ {l : List α}, x ∈ insertDesc key a l ↔ x = a ∨ x ∈ l := by
  intro l
  induction l with
  | nil => simp [insertDesc]
  | cons b t ih =>
    by_cases h : key a < key b
    · simp [insertDesc, h, ih]
      tauto
    · simp [insertDesc, h]

lemma insertDesc_perm {α : Type} (key : α → ℚ) (a : α) :
    ∀ (l : List α), (insertDesc key a l).Perm (a :: l) := by
  intro l
  induction l with
  | nil => simp [insertDesc]
  | cons b t ih =>
    by_cases h : key a < key b
    · simp only [insertDesc, h, if_true]
      exact (ih.cons b).trans (List.Perm.swap a b t)
    · simp [insertDesc, h]

lemma sortDesc_perm {α : Type} (key : α → ℚ) :
    ∀ (l : List α), (sortDesc key l).Perm l := by
  intro l
  induction l with
  | nil => simp [sortDesc]
  | cons a t ih => exact (insertDesc_perm key a (sortDesc key t)).trans (ih.cons a)

lemma insertDesc_pairwise {α : Type} {key : α → ℚ} {a : α} :
    ∀ {l : List α}, l.Pairwise (fun x y => key y ≤ key x) →
      (insertDesc key a l).Pairwise (fun x y => key y ≤ key x) := by
  intro l
  induction l with
  | nil => simp [insertDesc]
  | cons b t ih =>
    intro h
    rcases List.pairwise_cons.mp h with ⟨hb, ht⟩
    by_cases hab : key a < key b
    · simp only [insertDesc, hab, if_true]
      refine List.pairwise_cons.mpr ⟨fun x hx => ?_, ih ht⟩
      rcases mem_insertDesc.mp hx with rfl | hx'
      · exact le_of_lt hab
      · exact hb x hx'
    · simp only [insertDesc, hab, if_false]
      refine List.pairwise_cons.mpr ⟨fun x hx => ?_, h⟩
      rcases List.mem_cons.mp hx with rfl | hx'
      · exact not_lt.mp hab
      · exact le_trans (hb x hx') (not_lt.mp hab)

lemma sortDesc_pairwise {α : Type} (key : α → ℚ) :
    ∀ (l : List α), (sortDesc key l).Pairwise (fun x y => key y ≤ key x) := by
  intro l
  induction l with
  | nil => simp [sortDesc]
  | cons a t ih => exact insertDesc_pairwise ih

lemma insertDesc_of_head {α : Type} {key : α → ℚ} {a : α} {l : List α}
    (h : ∀ b ∈ l.head?, key b ≤ key a) : insertDesc key a l = a :: l := by
  cases l with
  | nil => rfl
  | cons b t =>
    have : ¬ key a < key b := not_lt.mpr (h b rfl)
    simp [insertDesc, this]

lemma sortDesc_of_pairwise {α : Type} {key : α → ℚ} :
    ∀ {l : List α}, l.Pairwise (fun x y => key y ≤ key x) → sortDesc key l = l := by
  intro l
  induction l with
  | nil => intro _; rfl
  | cons a t ih =>
    intro h
    rcases List.pairwise_cons.mp h with ⟨ha, ht⟩
    rw [sortDesc, ih ht]
    refine insertDesc_of_head fun b hb => ?_
    exact ha b (List.mem_of_mem_head? hb)

/-- The mutable state of `RerankerService` after `__init__`
(reranker_service.py lines 8-33): which backends initialised, and the
`RERANKER_TYPE` configuration string. -/
structure RerankerState where
  crossEncoderAvailable : Bool
  openaiAvailable : Bool
  rerankerType : String
  deriving DecidableEq

/-- `RerankerService.is_available` (reranker_service.py lines 35-37). -/
def rerankerAvailable (st : RerankerState) : Bool :=
  st.crossEncoderAvailable || st.openaiAvailable

/-- The scored copy built for chunk `i` by `_rerank_with_cross_encoder`
(reranker_service.py lines 86-91): attach `rerank_score = scores[i]` and
`original_score = chunk.get('score', 0.0)`. -/
def zipScored (chunks : List RChunk) (ss : List ℚ) : List RChunk :=
  chunks.enum.map fun p =>
    { p.2 with rerank_score := some (ss.getD p.1 0), original_score := some p.2.score }

/-- `RerankerService._rerank_with_cross_encoder`
(reranker_service.py lines 70-100).  `ce` is the outcome of
`cross_encoder.predict`; an `.error` models a raised exception (caught, fall
back to `chunks[:top_k]`), as does a score list shorter than the input
(Python raises `IndexError` at `scores[i]`). -/
def rerankWithCrossEncoder (st : RerankerState) (ce : Except String (List ℚ))
    (chunks : List RChunk) (top_k : Nat) : List RChunk :=
  if st.crossEncoderAvailable = false then chunks.take top_k
  else
    match ce with
    | .error _ => chunks.take top_k
    | .ok ss =>
      if chunks.length ≤ ss.length then
        (sortDesc (fun c => c.rerank_score.getD 0) (zipScored chunks ss)).take top_k
      else chunks.take top_k

/-- The scored list built by `_rerank_with_openai`
(reranker_service.py lines 143-152): chunks beyond the parsed score list are
appended unscored. -/
def openaiScored (chunks : List RChunk) (ss : List ℚ) : List RChunk :=
  chunks.enum.map fun p =>
    if p.1 < ss.length then
      { p.2 with rerank_score := some (ss.getD p.1 0), original_score := some p.2.score }
    else p.2

/-- `RerankerService._rerank_with_openai` (reranker_service.py lines 102-161).
`oa` is the parsed score list from the chat-completion call; `.error` models
any exception in the call or in score parsing. -/
def rerankWithOpenai (st : RerankerState) (oa : Except String (List ℚ))
    (chunks : List RChunk) (top_k : Nat) : List RChunk :=
  if st.openaiAvailable = false then chunks.take top_k
  else
    match oa with
    | .error _ => chunks.take top_k
    | .ok ss => (sortDesc (fun c => c.rerank_score.getD 0) (openaiScored chunks ss)).take top_k

/-- The hybrid-score assignment of `_rerank_hybrid`
(reranker_service.py lines 177-186): `alpha = 0.7`, `beta = 0.3`, rerank
score mapped through `max(0, min(1, (s+1)/2))`, original score clamped to
`[0,1]`. -/
def assignHybrid (c : RChunk) : RChunk :=
  { c with
    hybrid_score :=
      some (0.7 * max 0 (min 1 ((c.rerank_score.getD 0 + 1) / 2)) +
        0.3 * max 0 (min 1 (c.original_score.getD 0))) }

/-- `RerankerService._rerank_hybrid` (reranker_service.py lines 163-195):
score via the cross-encoder over the full candidate set, blend, sort by the
blended score, truncate. -/
def rerankHybrid (st : RerankerState) (ce : Except String (List ℚ))
    (chunks : List RChunk) (top_k : Nat) : List RChunk :=
  if st.crossEncoderAvailable = false then chunks.take top_k
  else
    let ceChunks := rerankWithCrossEncoder st ce chunks chunks.length
    (sortDesc (fun c => c.hybrid_score.getD 0) (ceChunks.map assignHybrid)).take top_k

/-- `RerankerService.rerank_chunks` (reranker_service.py lines 39-68). -/
def rerankChunks (st : RerankerState) (ce oa : Except String (List ℚ))
    (chunks : List RChunk) (top_k : Nat) : List RChunk :=
  if chunks = [] ∨ rerankerAvailable st = false then chunks.take top_k
  else if st.rerankerType = "cross-encoder" ∧ st.crossEncoderAvailable then
    rerankWithCrossEncoder st ce chunks top_k
  else if st.rerankerType = "openai" ∧ st.openaiAvailable then
    rerankWithOpenai st oa chunks top_k
  else if st.rerankerType = "hybrid" then rerankHybrid st ce chunks top_k
  else chunks.take top_k

/-- Erase the `hybrid_score` tag (the only key the degraded hybrid path adds
to the input dicts); every other field, in particular `score`,
`rerank_score` and `original_score`, is untouched by this projection. -/
def stripHybrid (c : RChunk) : RChunk := { c with hybrid_score := none }

lemma rerankChunks_length_le (st : RerankerState) (ce oa : Except String (List ℚ))
    (chunks : List RChunk) (top_k : Nat) :
    (rerankChunks st ce oa chunks top_k).length ≤ top_k := by
  have htake : ∀ (l : List RChunk), (l.take top_k).length ≤ top_k := fun l => by
    simp [List.length_take]
  unfold rerankChunks rerankHybrid rerankWithOpenai rerankWithCrossEncoder
  repeat' split
  all_goals apply htake

lemma stripHybrid_assignHybrid (c : RChunk) : stripHybrid (assignHybrid c) = stripHybrid c := rfl

/-- C3 amended (identity fallback): with no backend available, or an empty
chunk list, or a backend exception in cross-encoder or openai mode,
`rerank_chunks` returns exactly the first `top_k` input chunks in their
original order; in hybrid mode a backend exception degrades to blending the
pre-existing `rerank_score`/`original_score` fields, which again yields the
first `top_k` inputs in order whenever the inputs carry no such fields —
in every case no `score`/`rerank_score`/`original_score` field is changed
(only a `hybrid_score` tag may be added, erased here by `stripHybrid`). -/
theorem rerankChunks_identity_fallback (st : RerankerState)
    (ce oa : Except String (List ℚ)) (chunks : List RChunk) (top_k : Nat)
    (h : rerankerAvailable st = false ∨ chunks = [] ∨
      (st.rerankerType = "cross-encoder" ∧ (∃ e, ce = .error e)) ∨
      (st.rerankerType = "openai" ∧ (∃ e, oa = .error e)) ∨
      (st.rerankerType = "hybrid" ∧ (∃ e, ce = .error e) ∧
        ∀ c ∈ chunks, c.rerank_score = none ∧ c.original_score = none)) :
    (rerankChunks st ce oa chunks top_k).map stripHybrid =
      (chunks.take top_k).map stripHybrid := by
  by_cases hguard : chunks = [] ∨ rerankerAvailable st = false
  · rw [rerankChunks, if_pos hguard]
  · push_neg at hguard
    rcases h with hav | hnil | ⟨hty, e, rfl⟩ | ⟨hty, e, rfl⟩ | ⟨hty, ⟨e, rfl⟩, hnone⟩
    · exact absurd hav hguard.2
    · exact absurd hnil hguard.1
    · rw [rerankChunks, if_neg (by tauto)]
      by_cases hcea : st.crossEncoderAvailable
      · rw [if_pos ⟨hty, hcea⟩, rerankWithCrossEncoder, if_neg (by simp [hcea])]
      · rw [if_neg (by tauto), if_neg (by rw [hty]; simp), if_neg (by rw [hty]; simp)]
    · rw [rerankChunks, if_neg (by tauto), if_neg (by rw [hty]; simp)]
      by_cases hoa : st.openaiAvailable
      · rw [if_pos ⟨hty, hoa⟩, rerankWithOpenai, if_neg (by simp [hoa])]
      · rw [if_neg (by tauto), if_neg (by rw [hty]; simp)]
    · rw [rerankChunks, if_neg (by tauto), if_neg (by rw [hty]; simp),
        if_neg (by rw [hty]; simp), if_pos hty, rerankHybrid]
      by_cases hcea : st.crossEncoderAvailable = false
      · rw [if_pos hcea]
      · rw [if_neg hcea, rerankWithCrossEncoder,
          if_neg hcea]
        show ((sortDesc (fun c => c.hybrid_score.getD 0)
          ((chunks.take chunks.length).map assignHybrid)).take top_k).map stripHybrid = _
        rw [List.take_length]
        have hkey : ∀ c ∈ chunks.map assignHybrid,
            c.hybrid_score.getD 0 =
              0.7 * max 0 (min 1 ((0 + 1) / 2)) + 0.3 * max 0 (min 1 (0 : ℚ)) := by
          intro c hc
          rcases List.mem_map.mp hc with ⟨d, hd, rfl⟩
          rcases hnone d hd with ⟨h1, h2⟩
          simp [assignHybrid, h1, h2]
        have hsorted : (chunks.map assignHybrid).Pairwise
            (fun x y => y.hybrid_score.getD 0 ≤ x.hybrid_score.getD 0) :=
          List.pairwise_of_forall_mem_list fun a ha b hb =>
            le_of_eq ((hkey b hb).trans (hkey a ha).symm)
        rw [sortDesc_of_pairwise hsorted, ← List.map_take]
        simp [List.map_map, Function.comp_def, stripHybrid_assignHybrid]

/-- Witness for `rerankChunks_identity_fallback` at a concrete disabled
reranker. -/
theorem rerankChunks_identity_fallback_witness :
    (rerankerAvailable ⟨false, false, "cross-encoder"⟩ = false ∨
        ([sampleChunk] : List RChunk) = [] ∨
        ((⟨false, false, "cross-encoder"⟩ : RerankerState).rerankerType = "cross-encoder" ∧
          (∃ e, (Except.ok [] : Except String (List ℚ)) = .error e)) ∨
        ((⟨false, false, "cross-encoder"⟩ : RerankerState).rerankerType = "openai" ∧
          (∃ e, (Except.ok [] : Except String (List ℚ)) = .error e)) ∨
        ((⟨false, false, "cross-encoder"⟩ : RerankerState).rerankerType = "hybrid" ∧
          (∃ e, (Except.ok [] : Except String (List ℚ)) = .error e) ∧
          ∀ c ∈ ([sampleChunk] : List RChunk),
            c.rerank_score = none ∧ c.original_score = none)) ∧
      (rerankChunks ⟨false, false, "cross-encoder"⟩ (.ok []) (.ok [])
          [sampleChunk] 1).map stripHybrid =
        (([sampleChunk] : List RChunk).take 1).map stripHybrid :=
  ⟨Or.inl (by decide),
    rerankChunks_identity_fallback ⟨false, false, "cross-encoder"⟩ (.ok []) (.ok [])
      [sampleChunk] 1 (Or.inl (by decide))⟩

/-- The reranker state of the counterexample: hybrid mode with an initialised
cross-encoder. -/
def hybridSt : RerankerState := ⟨true, false, "hybrid"⟩

/-- A chunk already carrying a low pre-existing `rerank_score`. -/
def cexChunkA : RChunk := { text := "a", rerank_score := some (-1) }

/-- A chunk already carrying a high pre-existing `rerank_score`. -/
def cexChunkB : RChunk := { text := "b", rerank_score := some 1 }

/-- C3 counterexample: as literally stated the claim is false.  In hybrid
mode with a failing cross-encoder call, `rerank_chunks` does not return the
first `top_k` input chunks in their original order: with inputs that already
carry `rerank_score` fields the degraded hybrid blend reorders them
(`["a", "b"]` becomes `["b", "a"]`). -/
theorem rerankChunks_identity_fallback_cex :
    (∃ e, (Except.error "boom" : Except String (List ℚ)) = .error e) ∧
      (rerankChunks hybridSt (.error "boom") (.ok []) [cexChunkA, cexChunkB] 2).map
          (fun c => c.text) = ["b", "a"] ∧
      (([cexChunkA, cexChunkB] : List RChunk).take 2).map (fun c => c.text) = ["a", "b"] ∧
      (rerankChunks hybridSt (.error "boom") (.ok []) [cexChunkA, cexChunkB] 2).map
          (fun c => c.text) ≠
        (([cexChunkA, cexChunkB] : List RChunk).take 2).map (fun c => c.text) := by
  have h1 : (rerankChunks hybridSt (.error "boom") (.ok [])
      [cexChunkA, cexChunkB] 2) =
      (sortDesc (fun c => c.hybrid_score.getD 0)
        ([cexChunkA, cexChunkB].map assignHybrid)).take 2 := by
    rw [rerankChunks, if_neg (by simp [hybridSt, rerankerAvailable]),
      if_neg (by simp [hybridSt]), if_neg (by simp [hybridSt]),
      if_pos (by simp [hybridSt]), rerankHybrid, if_neg (by simp [hybridSt]),
      rerankWithCrossEncoder, if_neg (by simp [hybridSt])]
    rfl
  have ha : assignHybrid cexChunkA =
      { cexChunkA with hybrid_score := some 0 } := by
    simp only [assignHybrid, cexChunkA]
    norm_num
  have hb : assignHybrid cexChunkB =
      { cexChunkB with hybrid_score := some 0.7 } := by
    simp only [assignHybrid, cexChunkB]
    norm_num
  have hL : (rerankChunks hybridSt (.error "boom") (.ok [])
      [cexChunkA, cexChunkB] 2).map (fun c => c.text) = ["b", "a"] := by
    rw [h1]
    simp only [List.map_cons, List.map_nil, ha, hb]
    simp only [sortDesc, insertDesc]
    rw [if_pos (by norm_num)]
    rfl
  have hR : (([cexChunkA, cexChunkB] : List RChunk).take 2).map (fun c => c.text) =
      ["a", "b"] := rfl
  refine ⟨⟨"boom", rfl⟩, hL, hR, ?_⟩
  rw [hL, hR]
  simp

/-- The hybrid-scored candidate set as the spec describes it (spec §4.4,
hybrid mode): every candidate paired with its backend score, with
`normalized_rerank = clamp((s+1)/2, 0, 1)`, `normalized_original =
clamp(original, 0, 1)` and `hybrid = 0.7*normalized_rerank +
0.3*normalized_original`. -/
def hybridSpecChunks (chunks : List RChunk) (ss : List ℚ) : List RChunk :=
  (chunks.zip ss).map fun p =>
    { p.1 with
      rerank_score := some p.2
      original_score := some p.1.score
      hybrid_score :=
        some (0.7 * max 0 (min 1 ((p.2 + 1) / 2)) + 0.3 * max 0 (min 1 p.1.score)) }

lemma zipScored_assignHybrid {chunks : List RChunk} {ss : List ℚ}
    (h : ss.length = chunks.length) :
    (zipScored chunks ss).map assignHybrid = hybridSpecChunks chunks ss := by
  apply List.ext_getElem
  · simp [zipScored, hybridSpecChunks, h]
  · intro n h₁ h₂
    have hn : n < chunks.length := by simpa [zipScored] using h₁
    have hns : n < ss.length := by omega
    simp [zipScored, hybridSpecChunks, assignHybrid, List.getElem_enum, List.getElem_zip,
      List.getElem?_eq_getElem hns]

/-- C4 (hybrid mode): with the hybrid reranker configured, an initialised
cross-encoder, and a successful scoring call returning one score per
candidate, `rerank_chunks` returns the first `top_k` of a list that is a
permutation of the fully scored candidate set (each candidate carrying
`hybrid_score = 0.7*clamp((rerank+1)/2,0,1) + 0.3*clamp(original,0,1)`),
sorted in descending order of `hybrid_score`. -/
theorem rerankChunks_hybrid_spec (st : RerankerState) (oa : Except String (List ℚ))
    (chunks : List RChunk) (ss : List ℚ) (top_k : Nat)
    (hty : st.rerankerType = "hybrid") (hce : st.crossEncoderAvailable = true)
    (hne : chunks ≠ []) (hss : ss.length = chunks.length) :
    ∃ l : List RChunk, l.Perm (hybridSpecChunks chunks ss) ∧
      l.Pairwise (fun a b => b.hybrid_score.getD 0 ≤ a.hybrid_score.getD 0) ∧
      rerankChunks st (.ok ss) oa chunks top_k = l.take top_k := by
  have hcc : rerankWithCrossEncoder st (.ok ss) chunks chunks.length =
      sortDesc (fun c => c.rerank_score.getD 0) (zipScored chunks ss) := by
    have hlen : (sortDesc (fun c => c.rerank_score.getD 0)
        (zipScored chunks ss)).length = chunks.length := by
      rw [(sortDesc_perm _ _).length_eq]
      simp [zipScored]
    rw [rerankWithCrossEncoder, if_neg (by simp [hce])]
    show (if chunks.length ≤ ss.length then
        (sortDesc (fun c => c.rerank_score.getD 0) (zipScored chunks ss)).take chunks.length
      else chunks.take chunks.length) = _
    rw [if_pos (by omega), ← hlen, List.take_length]
  refine ⟨sortDesc (fun c => c.hybrid_score.getD 0)
      ((sortDesc (fun c => c.rerank_score.getD 0) (zipScored chunks ss)).map assignHybrid),
    ?_, sortDesc_pairwise _ _, ?_⟩
  · have p1 := sortDesc_perm (fun c : RChunk => c.hybrid_score.getD 0)
      ((sortDesc (fun c => c.rerank_score.getD 0) (zipScored chunks ss)).map assignHybrid)
    have p2 := (sortDesc_perm (fun c : RChunk => c.rerank_score.getD 0)
      (zipScored chunks ss)).map assignHybrid
    rw [zipScored_assignHybrid hss] at p2
    exact p1.trans p2
  · rw [rerankChunks, if_neg (by simp [rerankerAvailable, hce, hne]),
      if_neg (by simp [hty]), if_neg (by simp [hty]), if_pos hty,
      rerankHybrid, if_neg (by simp [hce])]
    show (sortDesc (fun c => c.hybrid_score.getD 0)
        ((rerankWithCrossEncoder st (.ok ss) chunks chunks.length).map assignHybrid)).take
        top_k = _
    rw [hcc]

/-- Witness for `rerankChunks_hybrid_spec` at a concrete one-chunk input. -/
theorem rerankChunks_hybrid_spec_witness :
    (hybridSt.rerankerType = "hybrid" ∧ hybridSt.crossEncoderAvailable = true ∧
        ([sampleChunk] : List RChunk) ≠ [] ∧
        ([(1 : ℚ)] : List ℚ).length = ([sampleChunk] : List RChunk).length) ∧
      ∃ l : List RChunk, l.Perm (hybridSpecChunks [sampleChunk] [1]) ∧
        l.Pairwise (fun a b => b.hybrid_score.getD 0 ≤ a.hybrid_score.getD 0) ∧
        rerankChunks hybridSt (.ok [1]) (.ok []) [sampleChunk] 1 = l.take 1 :=
  ⟨⟨rfl, rfl, by decide, rfl⟩,
    rerankChunks_hybrid_spec hybridSt (.ok []) [sampleChunk] [1] 1 rfl rfl (by decide) rfl⟩

/-! ## RetrievalOrchestrator: `RAGService.search_context`
(src/backend/services/rag_service.py, lines 21-59) -/

/-- `retrieval_k = min(max(top_k * retrieval_multiplier, 10), max_candidates)`
(rag_service.py line 31). -/
def retrievalK (top_k mult maxc : Nat) : Nat :=
  min (max (top_k * mult) 10) maxc

/-- Modelled from the spec's words (spec §4.5 step 2):
`clamp(v, lower, upper)`, for comparison with `retrievalK`. -/
def clampSpec (v lower upper : Nat) : Nat :=
  min (max v lower) upper

/-- `RAGService.search_context` (rag_service.py lines 21-59).  `retrieve`
abstracts the retrieval stage (`_semantic_search` falling back to
`_text_search`, both selected on embedding availability); its `Except` layer
is the exception channel caught by the method's top-level `try/except`, which
converts any pipeline exception to `[]`.  The query is a `List Char` and
the empty-after-strip guard is the `if not query.strip()` check. -/
def searchContext (st : RerankerState) (ce oa : Except String (List ℚ))
    (retrieve : Nat → Except String (List RChunk)) (query : List Char)
    (top_k mult maxc : Nat) : List RChunk :=
  if (stripChars query).isEmpty then []
  else
    match retrieve (retrievalK top_k mult maxc) with
    | .error _ => []
    | .ok initial =>
      if top_k < initial.length ∧ rerankerAvailable st = true then
        (rerankChunks st ce oa initial top_k).map fun c => { c with reranked := true }
      else (initial.take top_k).map fun c => { c with reranked := false }

/-- C2 (over-fetch size): for positive `top_k`, with multiplier 2 and cap 20
the orchestrator's `retrieval_k` is `clamp(top_k*2, 10, 20)`; in particular
`top_k = 5` gives 10 and `top_k = 15` gives 20. -/
theorem retrievalK_clamp (top_k : Nat) (h : 0 < top_k) :
    retrievalK top_k 2 20 = clampSpec (top_k * 2) 10 20 ∧
      retrievalK 5 2 20 = 10 ∧ retrievalK 15 2 20 = 20 :=
  ⟨rfl, rfl, rfl⟩

/-- Witness for `retrievalK_clamp` at `top_k = 5`. -/
theorem retrievalK_clamp_witness :
    0 < 5 ∧ (retrievalK 5 2 20 = clampSpec (5 * 2) 10 20 ∧
      retrievalK 5 2 20 = 10 ∧ retrievalK 15 2 20 = 20) :=
  ⟨by decide, retrievalK_clamp 5 (by decide)⟩

/-- C1 (rerank gating): on a non-empty query whose retrieval stage returns
`initial`, the orchestrator invokes the reranker exactly when
`len(initial) > top_k` and the reranker is available — tagging every
returned chunk `reranked = true` — and otherwise returns the first `top_k`
initial results tagged `reranked = false`; in both cases at most `top_k`
chunks are returned. -/
theorem searchContext_rerank_iff (st : RerankerState) (ce oa : Except String (List ℚ))
    (retrieve : Nat → Except String (List RChunk)) (query : List Char)
    (top_k mult maxc : Nat) (initial : List RChunk)
    (hq : ¬ (stripChars query).isEmpty)
    (hr : retrieve (retrievalK top_k mult maxc) = .ok initial) :
    (top_k < initial.length ∧ rerankerAvailable st = true →
      searchContext st ce oa retrieve query top_k mult maxc =
          (rerankChunks st ce oa initial top_k).map (fun c => { c with reranked := true }) ∧
        (∀ c ∈ searchContext st ce oa retrieve query top_k mult maxc, c.reranked = true) ∧
        (searchContext st ce oa retrieve query top_k mult maxc).length ≤ top_k) ∧
    (¬ (top_k < initial.length ∧ rerankerAvailable st = true) →
      searchContext st ce oa retrieve query top_k mult maxc =
          (initial.take top_k).map (fun c => { c with reranked := false }) ∧
        (∀ c ∈ searchContext st ce oa retrieve query top_k mult maxc, c.reranked = false) ∧
        (searchContext st ce oa retrieve query top_k mult maxc).length ≤ top_k) := by
  constructor
  · intro hcond
    have hval : searchContext st ce oa retrieve query top_k mult maxc =
        (rerankChunks st ce oa initial top_k).map (fun c => { c with reranked := true }) := by
      rw [searchContext, if_neg (by simpa using hq), hr]
      simp only [if_pos hcond]
    refine ⟨hval, ?_, ?_⟩
    · intro c hc
      rw [hval] at hc
      rcases List.mem_map.mp hc with ⟨d, _, rfl⟩
      rfl
    · rw [hval, List.length_map]
      exact rerankChunks_length_le st ce oa initial top_k
  · intro hcond
    have hval : searchContext st ce oa retrieve query top_k mult maxc =
        (initial.take top_k).map (fun c => { c with reranked := false }) := by
      rw [searchContext, if_neg (by simpa using hq), hr]
      simp only [if_neg hcond]
    refine ⟨hval, ?_, ?_⟩
    · intro c hc
      rw [hval] at hc
      rcases List.mem_map.mp hc with ⟨d, _, rfl⟩
      rfl
    · rw [hval, List.length_map]
      simp [List.length_take]

/-- Witness for `searchContext_rerank_iff`: reranker disabled, two stored
chunks, `top_k = 1`. -/
theorem searchContext_rerank_iff_witness :
    (¬ (stripChars ['h']).isEmpty ∧
        (fun _ : Nat => (Except.ok [sampleChunk, sampleChunk] : Except String (List RChunk)))
            (retrievalK 1 2 20) = .ok [sampleChunk, sampleChunk] ∧
        ¬ (1 < ([sampleChunk, sampleChunk] : List RChunk).length ∧
          rerankerAvailable ⟨false, false, "cross-encoder"⟩ = true)) ∧
      searchContext ⟨false, false, "cross-encoder"⟩ (.ok []) (.ok [])
          (fun _ => .ok [sampleChunk, sampleChunk]) ['h'] 1 2 20 =
          (([sampleChunk, sampleChunk] : List RChunk).take 1).map
            (fun c => { c with reranked := false }) ∧
        (∀ c ∈ searchContext ⟨false, false, "cross-encoder"⟩ (.ok []) (.ok [])
            (fun _ => .ok [sampleChunk, sampleChunk]) ['h'] 1 2 20, c.reranked = false) ∧
        (searchContext ⟨false, false, "cross-encoder"⟩ (.ok []) (.ok [])
            (fun _ => .ok [sampleChunk, sampleChunk]) ['h'] 1 2 20).length ≤ 1 :=
  ⟨⟨by decide, rfl, by decide⟩,
    (searchContext_rerank_iff ⟨false, false, "cross-encoder"⟩ (.ok []) (.ok [])
        (fun _ => .ok [sampleChunk, sampleChunk]) ['h'] 1 2 20 [sampleChunk, sampleChunk]
        (by decide) rfl).2 (by decide)⟩

/-- C5 (degradation to empty results): an empty or whitespace-only query
yields `[]` without an error, and any exception escaping the retrieval/rerank
pipeline is caught by the top-level handler of `search_context` and likewise
converted to `[]`. -/
theorem searchContext_degrades (st : RerankerState) (ce oa : Except String (List ℚ))
    (retrieve : Nat → Except String (List RChunk)) (query : List Char)
    (top_k mult maxc : Nat) :
    ((stripChars query).isEmpty →
      searchContext st ce oa retrieve query top_k mult maxc = []) ∧
    (∀ e, retrieve (retrievalK top_k mult maxc) = .error e →
      searchContext st ce oa retrieve query top_k mult maxc = []) := by
  constructor
  · intro h
    rw [searchContext, if_pos (by simpa using h)]
  · intro e he
    rw [searchContext]
    by_cases hq : (stripChars query).isEmpty
    · rw [if_pos (by simpa using hq)]
    · rw [if_neg (by simpa using hq), he]

/-- Witness for `searchContext_degrades`: a whitespace query, and a failing
retrieval stage. -/
theorem searchContext_degrades_witness :
    ((stripChars [' ']).isEmpty ∧
        searchContext ⟨false, false, "cross-encoder"⟩ (.ok []) (.ok [])
          (fun _ => .ok []) [' '] 5 2 20 = []) ∧
      ((fun _ : Nat => (Except.error "db down" : Except String (List RChunk)))
            (retrievalK 5 2 20) = .error "db down" ∧
        searchContext ⟨false, false, "cross-encoder"⟩ (.ok []) (.ok [])
          (fun _ => .error "db down") ['h'] 5 2 20 = []) :=
  ⟨⟨by decide,
      (searchContext_degrades ⟨false, false, "cross-encoder"⟩ (.ok []) (.ok [])
        (fun _ => .ok []) [' '] 5 2 20).1 (by decide)⟩,
    ⟨rfl,
      (searchContext_degrades ⟨false, false, "cross-encoder"⟩ (.ok []) (.ok [])
        (fun _ => .error "db down") ['h'] 5 2 20).2 "db down" rfl⟩⟩

/-! ## VectorStore: `VectorService.store_embeddings`
(src/backend/services/vector_service.py, lines 30-78) and
`PineconeService.create_chunk_id` (src/backend/services/pinecone_service.py,
lines 207-209) -/

/-- A chunk record as handed to `store_embeddings` (built in
`FileService.upload_file`): the chunk's sequence identifier (`chunk_id`),
its text, an embedding that may be empty (Python falsy = absent), and
metadata. -/
structure StoredChunk where
  chunk_id : Nat := 0
  text : String := ""
  embedding : List ℚ := []
  filename : String := ""
  start_pos : Nat := 0
  end_pos : Nat := 0
  char_count : Nat := 0
  deriving DecidableEq

/-- One entry of the `embeddings_data` list built by `_store_in_pinecone`
(vector_service.py lines 48-70). -/
structure EmbeddingData where
  id : String
  embedding : List ℚ
  workspace_id : String
  file_id : String
  filename : String
  chunk_id : String
  text : String
  start_pos : Nat
  end_pos : Nat
  char_count : Nat
  deriving DecidableEq

/-- `PineconeService.create_chunk_id` (pinecone_service.py lines 207-209). -/
def createChunkId (workspace_id file_id chunk_id : String) : String :=
  workspace_id ++ "_" ++ file_id ++ "_" ++ chunk_id

/-- The record built for one chunk by `_store_in_pinecone`
(vector_service.py lines 54-69). -/
def mkEmbeddingData (ws fid : String) (c : StoredChunk) : EmbeddingData :=
  { id := createChunkId ws fid (toString c.chunk_id)
    embedding := c.embedding
    workspace_id := ws
    file_id := fid
    filename := c.filename
    chunk_id := toString c.chunk_id
    text := c.text
    start_pos := c.start_pos
    end_pos := c.end_pos
    char_count := c.char_count }

/-- The `embeddings_data` list of `_store_in_pinecone` (vector_service.py
lines 48-70): chunks with a falsy embedding are skipped by the
`if not chunk.get('embedding'): continue` guard. -/
def pineconeEmbeddingsData (ws fid : String) (chunks : List StoredChunk) :
    List EmbeddingData :=
  chunks.filterMap fun c =>
    if c.embedding = [] then none else some (mkEmbeddingData ws fid c)

/-- `VectorService._store_in_pinecone` together with
`PineconeService.upsert_embeddings` (vector_service.py lines 45-74,
pinecone_service.py lines 56-96): `upsert` is the batched upsert call on the
external index, `.error` modelling a raised exception (caught inside
`upsert_embeddings`, which then returns `False`). -/
def storeInPinecone (upsert : List EmbeddingData → Except String Unit)
    (ws fid : String) (chunks : List StoredChunk) : Bool :=
  let dat := pineconeEmbeddingsData ws fid chunks
  if dat.isEmpty then true
  else
    match upsert dat with
    | .ok _ => true
    | .error _ => false

/-- The `VectorService` state after `__init__` (vector_service.py lines
9-21): the selected `VECTOR_STORE` backend and its availability. -/
structure VectorServiceState where
  vector_store : String
  available : Bool
  deriving DecidableEq

/-- `VectorService.store_embeddings` (vector_service.py lines 30-43).
`repoResult` abstracts `FileRepository.add_text_chunks`, the local
(MongoDB) fallback write: it receives the file id and the full chunk list
and reports the repository's boolean outcome. -/
def storeEmbeddings (svc : VectorServiceState)
    (upsert : List EmbeddingData → Except String Unit)
    (repoResult : String → List StoredChunk → Bool)
    (ws fid : String) (chunks : List StoredChunk) : Bool :=
  if svc.available = false then false
  else if svc.vector_store = "pinecone" then storeInPinecone upsert ws fid chunks
  else repoResult fid chunks

/-- What `store_embeddings` hands to the underlying store to be written:
under the pinecone backend, the `embeddings_data` records (vector_service.py
line 73); under the MongoDB fallback, the full chunk list passed verbatim to
`FileRepository.add_text_chunks` (vector_service.py lines 76-78,
file_repo.py lines 114-130, `chunk_dicts = [chunk.dict() for chunk in
chunks]`). -/
def storeEmbeddingsWritten (svc : VectorServiceState) (ws fid : String)
    (chunks : List StoredChunk) : List EmbeddingData × List StoredChunk :=
  if svc.available = false then ([], [])
  else if svc.vector_store = "pinecone" then (pineconeEmbeddingsData ws fid chunks, [])
  else ([], chunks)

lemma pineconeEmbeddingsData_eq_filter (ws fid : String) (chunks : List StoredChunk) :
    pineconeEmbeddingsData ws fid chunks =
      (chunks.filter fun c => ¬ c.embedding = []).map (mkEmbeddingData ws fid) := by
  induction chunks with
  | nil => rfl
  | cons c t ih =>
    by_cases h : c.embedding = []
    · simp [pineconeEmbeddingsData, List.filterMap_cons, h, List.filter_cons] at ih ⊢
      exact ih
    · simp [pineconeEmbeddingsData, List.filterMap_cons, h, List.filter_cons] at ih ⊢
      exact ih

/-- The MongoDB-backed service of the counterexample. -/
def mongoSvc : VectorServiceState := ⟨"mongodb", true⟩

/-- A chunk with no embedding (Python falsy `chunk.get('embedding')`). -/
def noEmbChunk : StoredChunk := { chunk_id := 0, text := "t", embedding := [], filename := "f.txt" }

/-- C8 counterexample: as stated for every backend the claim is false.
Under the local (MongoDB) fallback backend, a chunk with no embedding is
not skipped: `store_embeddings` hands the full chunk list — embedding-less
chunks included — to `FileRepository.add_text_chunks`, which writes it
verbatim into the document's `text_chunks`. -/
theorem storeEmbeddings_skips_cex :
    noEmbChunk.embedding = [] ∧
      noEmbChunk ∈ (storeEmbeddingsWritten mongoSvc "ws1" "file1" [noEmbChunk]).2 := by
  constructor
  · rfl
  · show noEmbChunk ∈ (storeEmbeddingsWritten mongoSvc "ws1" "file1" [noEmbChunk]).2
    rw [storeEmbeddingsWritten, if_neg (by decide), if_neg (by decide)]
    exact List.mem_singleton.mpr rfl

/-- C8 amended: under the external-index (pinecone) backend,
`store_embeddings` skips exactly the chunks with no embedding, stores each
remaining chunk under the composite id
`f"{workspace_id}_{file_id}_{chunk_id}"`, returns true on an empty input,
and returns false exactly when the non-empty upsert call raises; under the
local (MongoDB) fallback it hands the full chunk list — embedding-less
chunks included — to the document repository and returns that repository's
boolean result (which may be false without any exception). -/
theorem storeEmbeddings_amended (svc : VectorServiceState)
    (upsert : List EmbeddingData → Except String Unit)
    (repoResult : String → List StoredChunk → Bool)
    (ws fid : String) (chunks : List StoredChunk)
    (hav : svc.available = true) :
    (svc.vector_store = "pinecone" →
      (storeEmbeddingsWritten svc ws fid chunks).1 =
          (chunks.filter fun c => ¬ c.embedding = []).map (mkEmbeddingData ws fid) ∧
        (∀ d ∈ (storeEmbeddingsWritten svc ws fid chunks).1, ∃ c ∈ chunks,
          ¬ c.embedding = [] ∧ d.id = createChunkId ws fid (toString c.chunk_id)) ∧
        (chunks = [] → storeEmbeddings svc upsert repoResult ws fid chunks = true) ∧
        (storeEmbeddings svc upsert repoResult ws fid chunks = false ↔
          ¬ (pineconeEmbeddingsData ws fid chunks).isEmpty ∧
            ∃ e, upsert (pineconeEmbeddingsData ws fid chunks) = .error e)) ∧
    (¬ svc.vector_store = "pinecone" →
      (storeEmbeddingsWritten svc ws fid chunks).2 = chunks ∧
        storeEmbeddings svc upsert repoResult ws fid chunks = repoResult fid chunks) := by
  constructor
  · intro hpc
    have hw : storeEmbeddingsWritten svc ws fid chunks =
        (pineconeEmbeddingsData ws fid chunks, []) := by
      rw [storeEmbeddingsWritten, if_neg (by simp [hav]), if_pos hpc]
    have hs : storeEmbeddings svc upsert repoResult ws fid chunks =
        storeInPinecone upsert ws fid chunks := by
      rw [storeEmbeddings, if_neg (by simp [hav]), if_pos hpc]
    refine ⟨by rw [hw]; exact pineconeEmbeddingsData_eq_filter ws fid chunks, ?_, ?_, ?_⟩
    · intro d hd
      rw [hw, pineconeEmbeddingsData_eq_filter] at hd
      rcases List.mem_map.mp hd with ⟨c, hc, rfl⟩
      rcases List.mem_filter.mp hc with ⟨hcm, hce⟩
      exact ⟨c, hcm, by simpa using hce, rfl⟩
    · intro hnil
      subst hnil
      rw [hs, storeInPinecone]
      rfl
    · rw [hs, storeInPinecone]
      by_cases hdat : (pineconeEmbeddingsData ws fid chunks).isEmpty
      · simp [hdat]
      · simp only [hdat, if_false, Bool.false_eq_true, iff_false]
        cases hu : upsert (pineconeEmbeddingsData ws fid chunks) with
        | ok u => simp [hu, hdat]
        | error e => simp [hu, hdat]
  · intro hpc
    refine ⟨?_, ?_⟩
    · rw [storeEmbeddingsWritten, if_neg (by simp [hav]), if_neg hpc]
    · rw [storeEmbeddings, if_neg (by simp [hav]), if_neg hpc]

/-- Witness for `storeEmbeddings_amended`: pinecone backend, one embedded
and one embedding-less chunk, successful upsert. -/
theorem storeEmbeddings_amended_witness :
    ((⟨"pinecone", true⟩ : VectorServiceState).available = true ∧
        (⟨"pinecone", true⟩ : VectorServiceState).vector_store = "pinecone") ∧
      (storeEmbeddingsWritten ⟨"pinecone", true⟩ "w" "f" [noEmbChunk, { embedding := [1] }]).1 =
          (([noEmbChunk, { embedding := [1] }] : List StoredChunk).filter
            fun c => ¬ c.embedding = []).map (mkEmbeddingData "w" "f") ∧
        (∀ d ∈ (storeEmbeddingsWritten ⟨"pinecone", true⟩ "w" "f"
            [noEmbChunk, { embedding := [1] }]).1, ∃ c ∈
              ([noEmbChunk, { embedding := [1] }] : List StoredChunk),
          ¬ c.embedding = [] ∧ d.id = createChunkId "w" "f" (toString c.chunk_id)) ∧
        (([noEmbChunk, { embedding := [1] }] : List StoredChunk) = [] →
          storeEmbeddings ⟨"pinecone", true⟩ (fun _ => .ok ()) (fun _ _ => false) "w" "f"
            [noEmbChunk, { embedding := [1] }] = true) ∧
        (storeEmbeddings ⟨"pinecone", true⟩ (fun _ => .ok ()) (fun _ _ => false) "w" "f"
            [noEmbChunk, { embedding := [1] }] = false ↔
          ¬ (pineconeEmbeddingsData "w" "f" [noEmbChunk, { embedding := [1] }]).isEmpty ∧
            ∃ e, (fun _ : List EmbeddingData => (Except.ok () : Except String Unit))
              (pineconeEmbeddingsData "w" "f" [noEmbChunk, { embedding := [1] }]) = .error e) :=
  ⟨⟨rfl, rfl⟩,
    (storeEmbeddings_amended ⟨"pinecone", true⟩ (fun _ => .ok ()) (fun _ _ => false) "w" "f"
      [noEmbChunk, { embedding := [1] }] rfl).1 rfl⟩

/-! ## Rerank metrics: `RerankerService.calculate_rerank_improvement`
(src/backend/services/reranker_service.py, lines 207-247) -/

/-- The `original_order` dict of `calculate_rerank_improvement`
(reranker_service.py line 215), looked up at key `k`: the dict maps
`chunk.get('chunk_id', i)` to `i`, later entries overwriting earlier ones,
so a lookup returns the last index whose key matches. -/
def lastOriginalIndex (original : List RChunk) (k : Nat) : Option Nat :=
  original.enum.foldl (fun acc p => if p.2.cid.getD p.1 == k then some p.1 else acc) none

/-- The `position_changes` list (reranker_service.py lines 216-223):
`original_pos - i` for each reranked chunk whose key is found. -/
def positionChanges (original reranked : List RChunk) : List ℤ :=
  reranked.enum.filterMap fun p =>
    (lastOriginalIndex original (p.2.cid.getD p.1)).map fun op => (op : ℤ) - (p.1 : ℤ)

/-- The `score_improvements` list (reranker_service.py lines 228-234):
keys read through `chunk.get(..., 0)` defaults, included when the
(defaulted) original score is positive. -/
def scoreImprovements (reranked : List RChunk) : List ℚ :=
  reranked.filterMap fun c =>
    if 0 < c.original_score.getD 0 then
      some ((c.rerank_score.getD 0 - c.original_score.getD 0) / c.original_score.getD 0)
    else none

/-- `np.mean(l) if l else 0` over integers. -/
def avgZ (l : List ℤ) : ℚ := if l.isEmpty then 0 else (l.sum : ℚ) / l.length

/-- `np.mean(l) if l else 0` over rationals. -/
def avgQ (l : List ℚ) : ℚ := if l.isEmpty then 0 else l.sum / l.length

/-- The metrics dict returned by `calculate_rerank_improvement`. -/
structure RerankMetrics where
  avg_position_change : ℚ
  avg_score_improvement : ℚ
  total_reranked : Nat
  reranking_applied : Bool
  deriving DecidableEq

/-- `RerankerService.calculate_rerank_improvement`
(reranker_service.py lines 207-247); `none` is the empty dict returned for
an empty input list. -/
def calculateRerankImprovement (original reranked : List RChunk) :
    Option RerankMetrics :=
  if original.isEmpty ∨ reranked.isEmpty then none
  else some
    { avg_position_change := avgZ (positionChanges original reranked)
      avg_score_improvement := avgQ (scoreImprovements reranked)
      total_reranked := reranked.length
      reranking_applied := true }

/-- Modelled from the spec's words (spec §4.4
`calculateRerankImprovement`): a score improvement is defined only for
chunks where both `rerank_score` and `original_score` are present and
`original_score > 0`; chunks with a missing term are excluded, not
defaulted to zero. -/
def specScoreImprovements (reranked : List RChunk) : List ℚ :=
  reranked.filterMap fun c =>
    match c.rerank_score, c.original_score with
    | some r, some o => if 0 < o then some ((r - o) / o) else none
    | _, _ => none

/-- The original list of the counterexample (any non-empty list works). -/
def cexOriginalList : List RChunk := [sampleChunk]

/-- The reranked list of the counterexample: an `original_score` but no
`rerank_score`. -/
def cexRerankedList : List RChunk := [{ original_score := some 1 }]

lemma scoreImprovements_cexRerankedList : scoreImprovements cexRerankedList = [-1] := by
  have h1 : (0 : ℚ) < 1 := by norm_num
  simp [scoreImprovements, cexRerankedList, List.filterMap_cons, h1]

/-- C9 counterexample: the claim is false as stated.  On a reranked chunk
carrying `original_score = 1` but no `rerank_score`, the code treats the
missing `rerank_score` as 0 and reports an average score improvement of
`(0 - 1)/1 = -1`, whereas the claimed exclusion of chunks with missing
terms would report 0 (the average over no defined values). -/
theorem calculateRerankImprovement_cex :
    (calculateRerankImprovement cexOriginalList cexRerankedList).map
        (fun m => m.avg_score_improvement) = some (-1) ∧
      avgQ (specScoreImprovements cexRerankedList) = 0 ∧
      (calculateRerankImprovement cexOriginalList cexRerankedList).map
          (fun m => m.avg_score_improvement) ≠
        some (avgQ (specScoreImprovements cexRerankedList)) := by
  have h2 : avgQ (specScoreImprovements cexRerankedList) = 0 := by
    simp [specScoreImprovements, cexRerankedList, List.filterMap_cons, avgQ]
  have h1 : (calculateRerankImprovement cexOriginalList cexRerankedList).map
      (fun m => m.avg_score_improvement) = some (-1) := by
    rw [calculateRerankImprovement,
      if_neg (by simp [cexOriginalList, cexRerankedList])]
    simp [scoreImprovements_cexRerankedList, avgQ]
  refine ⟨h1, h2, ?_⟩
  rw [h1, h2]
  intro hcontra
  have := Option.some.inj hcontra
  norm_num at this

/-- C9 amended: for non-empty inputs the metrics are: `total_reranked` is
the reranked-list length; the average position change is over exactly the
reranked chunks whose key (`chunk_id`, or positional index when missing)
matches some original chunk's key — the value being the *last* matching
original index minus the new index (positive = moved up), chunks with no
match excluded; the average score improvement is over exactly the chunks
whose `original_score` (defaulted to 0 when missing, hence excluding
chunks without one) is positive — but a missing `rerank_score` is treated
as 0 rather than excluded.  Empty value lists average to 0. -/
theorem calculateRerankImprovement_amended (original reranked : List RChunk)
    (h₁ : ¬ original.isEmpty) (h₂ : ¬ reranked.isEmpty) :
    ∃ m, calculateRerankImprovement original reranked = some m ∧
      m.total_reranked = reranked.length ∧
      m.reranking_applied = true ∧
      m.avg_position_change = avgZ (reranked.enum.filterMap fun p =>
        (original.enum.reverse.find? fun q => q.2.cid.getD q.1 == p.2.cid.getD p.1).map
          fun q => (q.1 : ℤ) - (p.1 : ℤ)) ∧
      m.avg_score_improvement = avgQ (reranked.filterMap fun c =>
        match c.original_score with
        | some o => if 0 < o then some ((c.rerank_score.getD 0 - o) / o) else none
        | none => none) := by
  have hfold : ∀ (l : List (Nat × RChunk)) (k : Nat) (acc : Option Nat),
      l.foldl (fun a p => if p.2.cid.getD p.1 == k then some p.1 else a) acc =
        (l.reverse.find? fun q => q.2.cid.getD q.1 == k).elim acc (fun q => some q.1) := by
    intro l k
    induction l with
    | nil => intro acc; rfl
    | cons x t ih =>
      intro acc
      rw [List.foldl_cons, ih, List.reverse_cons, List.find?_append]
      cases hf : t.reverse.find? (fun q => q.2.cid.getD q.1 == k) with
      | none =>
        simp only [Option.none_or]
        by_cases hx : x.2.cid.getD x.1 == k
        · simp [List.find?, hx]
        · simp [List.find?, hx]
      | some y => simp
  have hpos : positionChanges original reranked =
      reranked.enum.filterMap fun p =>
        (original.enum.reverse.find? fun q => q.2.cid.getD q.1 == p.2.cid.getD p.1).map
          fun q => (q.1 : ℤ) - (p.1 : ℤ) := by
    unfold positionChanges lastOriginalIndex
    congr 1
    funext p
    rw [hfold]
    cases hf : original.enum.reverse.find? fun q => q.2.cid.getD q.1 == p.2.cid.getD p.1 with
    | none => rfl
    | some y => rfl
  have hsc : scoreImprovements reranked =
      reranked.filterMap fun c =>
        match c.original_score with
        | some o => if 0 < o then some ((c.rerank_score.getD 0 - o) / o) else none
        | none => none := by
    unfold scoreImprovements
    congr 1
    funext c
    cases ho : c.original_score with
    | none => simp
    | some o => simp
  refine ⟨_, by rw [calculateRerankImprovement, if_neg (by simp [h₁, h₂])], rfl, rfl, ?_, ?_⟩
  · simp only [← hpos]
  · simp only [← hsc]

/-- Witness for `calculateRerankImprovement_amended` on concrete non-empty
lists. -/
theorem calculateRerankImprovement_amended_witness :
    (¬ ([sampleChunk] : List RChunk).isEmpty ∧
        ¬ ([sampleChunk] : List RChunk).isEmpty) ∧
      ∃ m, calculateRerankImprovement [sampleChunk] [sampleChunk] = some m ∧
        m.total_reranked = ([sampleChunk] : List RChunk).length ∧
        m.reranking_applied = true ∧
        m.avg_position_change = avgZ (([sampleChunk] : List RChunk).enum.filterMap fun p =>
          (([sampleChunk] : List RChunk).enum.reverse.find? fun q =>
              q.2.cid.getD q.1 == p.2.cid.getD p.1).map
            fun q => (q.1 : ℤ) - (p.1 : ℤ)) ∧
        m.avg_score_improvement = avgQ (([sampleChunk] : List RChunk).filterMap fun c =>
          match c.original_score with
          | some o => if 0 < o then some ((c.rerank_score.getD 0 - o) / o) else none
          | none => none) :=
  ⟨⟨by decide, by decide⟩,
    calculateRerankImprovement_amended [sampleChunk] [sampleChunk] (by decide) (by decide)⟩
